import Mathlib

/-!
Verification of the lazy two-layer transcoding cache of
`netlib/http/message.py` (class `Message` with its `CachedDecode` cells).

The source file is embedded shallowly below: byte strings are `List Nat`,
text is `String`, the stateful `Message` object becomes explicit state
passing over `MessageS`, and Python `ValueError` propagation becomes
`Except Unit`.  The external collaborators that the source imports
(`netlib.encoding`, `netlib.http.headers`, the `re` module) are not part
of `src/`; they are modelled from the specification of their interfaces
(sections 2, 4 and 6 of the spec) as the `Codec` record and the header,
content-type and literal-substitution functions below.
-/

set_option maxRecDepth 10000

namespace NetlibHttp

/-- Byte strings: each element is one byte value. -/
abbrev Bytes := List Nat

/-- ASCII lower-casing of one character, used for case-insensitive header
names. -/
def lchar (c : Char) : Char :=
  if 'A' ≤ c && c ≤ 'Z' then Char.ofNat (c.toNat + 32) else c

/-- Lower-case a string character-wise. -/
def lcase (s : String) : String := ⟨s.data.map lchar⟩

/-- Modelled from the spec: the Header Port (section 6) is a
case-insensitive ordered multimap; `netlib/http/headers.py` is not under
`src/`.  `hget` returns the value of the first field whose name matches
case-insensitively. -/
def hget (h : List (String × String)) (n : String) : Option String :=
  (h.find? (fun kv => lcase kv.1 == lcase n)).map (fun kv => kv.2)

/-- Modelled from the spec: Header Port deletion removes every field whose
name matches case-insensitively. -/
def hdel (h : List (String × String)) (n : String) : List (String × String) :=
  h.filter (fun kv => !(lcase kv.1 == lcase n))

/-- Modelled from the spec: Header Port assignment replaces the first
matching field in place, drops later duplicates, and appends when the name
is absent. -/
def hset (h : List (String × String)) (n v : String) : List (String × String) :=
  match h with
  | [] => [(n, v)]
  | kv :: rest =>
    if lcase kv.1 == lcase n then (n, v) :: hdel rest n
    else kv :: hset rest n v

/-- Modelled from the spec: Header Port pop-with-default; only its removal
effect is observable in the embedded code. -/
def hpop (h : List (String × String)) (n : String) : List (String × String) :=
  hdel h n

/-- Modelled from the spec: Header Port membership test. -/
def hcontains (h : List (String × String)) (n : String) : Bool :=
  (hget h n).isSome

/-- Lookup in an insertion-ordered dictionary (Python `dict.get`), used for
the content-type parameter map. -/
def dictGet (d : List (String × String)) (k : String) : Option String :=
  (d.find? (fun kv => kv.1 == k)).map (fun kv => kv.2)

/-- Assignment in an insertion-ordered dictionary (Python `d[k] = v`):
update the first binding of `k` in place, else append. -/
def dictSet (d : List (String × String)) (k v : String) : List (String × String) :=
  match d with
  | [] => [(k, v)]
  | kv :: rest => if kv.1 == k then (k, v) :: rest else kv :: dictSet rest k v

/-- Split a character list at the first occurrence of `sep` (Python
`split(sep, 1)`); `none` in the second component means `sep` was absent. -/
def splitFirst (sep : Char) : List Char → List Char × Option (List Char)
  | [] => ([], none)
  | c :: cs =>
    if c = sep then ([], some cs)
    else
      let r := splitFirst sep cs
      (c :: r.1, r.2)

/-- Split a character list at every occurrence of `sep` (Python
`split(sep)`). -/
def splitAll (sep : Char) : List Char → List (List Char)
  | [] => [[]]
  | c :: cs =>
    if c = sep then [] :: splitAll sep cs
    else
      match splitAll sep cs with
      | [] => [[c]]
      | g :: gs => (c :: g) :: gs

/-- Blank test for `strip`. -/
def isBlank (c : Char) : Bool := c == ' ' || c == '\t' || c == '\r' || c == '\n'

/-- Python `str.strip` on a character list. -/
def trimL (l : List Char) : List Char :=
  ((l.dropWhile isBlank).reverse.dropWhile isBlank).reverse

/-- Modelled from the spec: the Content-Type Port (section 6) parses a
content-type header value into `(type, subtype, params)` or absent;
`netlib/http/headers.py` is not under `src/`.  The value is split once at
a semicolon, the media type once at a slash (absent slash means parse
failure), and each later semicolon-separated clause with an equals sign
becomes one parameter binding. -/
def parse_content_type (c : String) :
    Option (String × String × List (String × String)) :=
  let (main, restOpt) := splitFirst ';' c.data
  let (t, subOpt) := splitFirst '/' main
  match subOpt with
  | none => none
  | some sub =>
    let params :=
      match restOpt with
      | none => []
      | some rest =>
        (splitAll ';' rest).foldl
          (fun d x =>
            match splitFirst '=' x with
            | (_, none) => d
            | (k, some v) => dictSet d ⟨trimL k⟩ ⟨trimL v⟩)
          []
    some (⟨lchar <$> trimL t⟩, ⟨lchar <$> trimL sub⟩, params)

/-- Modelled from the spec: the inverse direction of the Content-Type Port,
assembling `type/subtype; k=v; ...`. -/
def assemble_content_type (t sub : String) (params : List (String × String)) : String :=
  if params.isEmpty then t ++ "/" ++ sub
  else
    t ++ "/" ++ sub ++ "; " ++
      String.intercalate "; " (params.map (fun kv => kv.1 ++ "=" ++ kv.2))

/-- Does `needle` occur as a contiguous subsequence of `hay` (Python
`needle in hay`)? -/
def containsSeq (needle : List Char) : List Char → Bool
  | [] => needle.isEmpty
  | c :: cs => needle.isPrefixOf (c :: cs) || containsSeq needle cs

/-- ASCII view of a byte string, for the header replacement round trip. -/
def bytesToStr (b : Bytes) : String := ⟨b.map Char.ofNat⟩

/-- ASCII bytes of a string, for the header replacement round trip. -/
def strToBytes (s : String) : Bytes := s.data.map Char.toNat

/-- Modelled from the spec: the pattern substitution of the Replace
Operation (section 4.5).  The regex engine (Python `re.subn`) is external;
it is modelled for literal, metacharacter-free, non-empty patterns, where
`re.subn` performs leftmost non-overlapping literal replacement and
returns the rewritten sequence with the number of replacements. -/
def subnGo (pat repl : Bytes) : Nat → Bytes → Bytes × Nat
  | 0, l => (l, 0)
  | _ + 1, [] => ([], 0)
  | fuel + 1, x :: xs =>
    if !pat.isEmpty && pat.isPrefixOf (x :: xs) then
      let r := subnGo pat repl fuel ((x :: xs).drop pat.length)
      (repl ++ r.1, r.2 + 1)
    else
      let r := subnGo pat repl fuel xs
      (x :: r.1, r.2)

/-- Leftmost non-overlapping literal replacement; the fuel of `subnGo`
starts at the length of the subject, which bounds the number of steps. -/
def subnL (pat repl : Bytes) (l : Bytes) : Bytes × Nat :=
  subnGo pat repl l.length l

/-- Modelled from the spec: `Headers.replace` of the Header Port applies
the substitution across every header name and value and returns the
rewritten field list with the total count. -/
def hreplace (pat repl : Bytes) (h : List (String × String)) :
    List (String × String) × Nat :=
  h.foldr
    (fun kv acc =>
      let n1 := subnL pat repl (strToBytes kv.1)
      let v1 := subnL pat repl (strToBytes kv.2)
      ((bytesToStr n1.1, bytesToStr v1.1) :: acc.1, n1.2 + v1.2 + acc.2))
    ([], 0)

/-- Modelled from the spec: the Codec Port (section 6);
`netlib/encoding.py` is not under `src/`.  `decodeB`/`encodeB` transform
byte strings under a content-encoding scheme, `decodeT`/`encodeT`
transcode between bytes and text under a charset, all failing with a
decoding error for unsupported or malformed schemes or corrupt input.
`utf8_lossy` is the loss-tolerant `bytes.decode("utf8", errors)` fallback
and `lossy_encode` the loss-tolerant `str.encode("utf8", errors)`
fallback; both are total. -/
structure Codec where
  decodeB : Bytes → String → Except Unit Bytes
  encodeB : Bytes → String → Except Unit Bytes
  decodeT : Bytes → String → Except Unit String
  encodeT : String → String → Except Unit Bytes
  utf8_lossy : Bytes → String
  lossy_encode : String → Bytes

/-- One populated `CachedDecode` cell for the content layer
(`message.py` lines 55-64); the sentinel `no_cached_decode` is `none` at
the use sites. -/
structure CEntry where
  encoded : Bytes
  encoding : Option String
  strict : Bool
  decoded : Bytes
deriving DecidableEq, Repr

/-- One populated `CachedDecode` cell for the text layer. -/
structure TEntry where
  encoded : Bytes
  encoding : String
  strict : Bool
  decoded : String
deriving DecidableEq, Repr

/-- The mutable state of one `Message`: the body bytes and headers of its
`MessageData` plus the two cache cells (`message.py` lines 67-70).  The
http version and timestamps are never read or written by the embedded
operations and are omitted. -/
structure MessageS where
  raw_content : Option Bytes
  headers : List (String × String)
  content_cache : Option CEntry
  text_cache : Option TEntry
deriving DecidableEq, Repr

/-- Python truthiness of an optional header value (`if ce:`): absent and
empty are both falsy. -/
def truthyO : Option String → Bool
  | none => false
  | some c => !(c == "")

/-- Python truthiness of an optional byte string (`if self.content:`). -/
def truthyB : Option Bytes → Bool
  | none => false
  | some b => !b.isEmpty

/-- The scheme actually passed to the encoder (`ce or "identity"`):
an absent or empty header value falls back to the identity scheme. -/
def ceIdent : Option String → String
  | none => "identity"
  | some c => if c == "" then "identity" else c

namespace Message

/-- `Message.get_content` (lines 122-153) for a present body `raw`:
consult the content cache, else decode `raw` under the
`content-encoding` header, falling back to the raw bytes with a
non-strict cache entry when lenient. -/
def get_content_core (cd : Codec) (strict : Bool) (raw : Bytes) (s : MessageS) :
    Except Unit (Bytes × MessageS) :=
  let ce := hget s.headers "content-encoding"
  let recompute : Except Unit (Bytes × MessageS) :=
    match ce with
    | some c =>
      if c == "" then
        Except.ok (raw, { s with content_cache := some ⟨raw, ce, true, raw⟩ })
      else
        match cd.decodeB raw c with
        | Except.ok d =>
          Except.ok (d, { s with content_cache := some ⟨raw, ce, true, d⟩ })
        | Except.error e =>
          if strict then Except.error e
          else Except.ok (raw, { s with content_cache := some ⟨raw, ce, false, raw⟩ })
    | none =>
      Except.ok (raw, { s with content_cache := some ⟨raw, none, true, raw⟩ })
  match s.content_cache with
  | some e =>
    if e.encoded == raw && (e.strict || !strict) && e.encoding == ce then
      Except.ok (e.decoded, s)
    else recompute
  | none => recompute

/-- `Message.get_content` including the absent-body early return
(line 132). -/
def get_content (cd : Codec) (strict : Bool) (s : MessageS) :
    Except Unit (Option Bytes × MessageS) :=
  match s.raw_content with
  | none => Except.ok (none, s)
  | some raw => (get_content_core cd strict raw s).map (fun p => (some p.1, p.2))

/-- `Message.set_content` (lines 155-182).  The non-bytes `TypeError`
branch is outside the embedded value space (`value` is already optional
bytes).  Absent clears the body; otherwise encode under the
`content-encoding` header, removing that header and passing the value
through unchanged when encoding fails, then store the cache cell, assign
the raw body and rewrite `content-length`. -/
def set_content (cd : Codec) (value : Option Bytes) (s : MessageS) : MessageS :=
  match value with
  | none => { s with raw_content := none }
  | some v =>
    let ce := hget s.headers "content-encoding"
    let finish : MessageS → CEntry → MessageS := fun s1 entry =>
      { s1 with
        content_cache := some entry
        raw_content := some entry.encoded
        headers := hset s1.headers "content-length" (toString entry.encoded.length) }
    let miss : MessageS :=
      match cd.encodeB v (ceIdent ce) with
      | Except.ok enc => finish s ⟨enc, ce, true, v⟩
      | Except.error _ =>
        finish { s with headers := hdel s.headers "content-encoding" } ⟨v, none, true, v⟩
    match s.content_cache with
    | some e =>
      if e.decoded == v && e.encoding == ce && e.strict then finish s e
      else miss
    | none => miss

/-- `Message._get_content_type_charset` and `Message._guess_encoding`
(lines 219-235): charset parameter of the parsed content type when truthy,
else UTF-8 when the content type mentions json, else Latin-1. -/
def guess_encoding (s : MessageS) : String :=
  let ctv := (hget s.headers "content-type").getD ""
  let charset := (parse_content_type ctv).bind (fun ct => dictGet ct.2.2 "charset")
  let fb := if containsSeq "json".data ctv.data then "utf8" else "latin-1"
  match charset with
  | some e => if e == "" then fb else e
  | none => fb

/-- `Message.get_text` (lines 237-268): content-decode, then
charset-decode under the guessed charset through the text cache; the
lenient fallback re-reads `self.content` strictly and decodes it with the
loss-tolerant UTF-8 decoder, recording a non-strict cell. -/
def get_text (cd : Codec) (strict : Bool) (s : MessageS) :
    Except Unit (Option String × MessageS) :=
  match s.raw_content with
  | none => Except.ok (none, s)
  | some raw =>
    let enc := guess_encoding s
    match get_content_core cd strict raw s with
    | Except.error e => Except.error e
    | Except.ok (content, s1) =>
      let recompute : Except Unit (Option String × MessageS) :=
        let is_strict := (s1.content_cache.map (fun e => e.strict)).getD false
        match cd.decodeT content enc with
        | Except.ok d =>
          Except.ok (some d, { s1 with text_cache := some ⟨content, enc, is_strict, d⟩ })
        | Except.error e =>
          if strict then Except.error e
          else
            match get_content_core cd true raw s1 with
            | Except.error e2 => Except.error e2
            | Except.ok (c2, s2) =>
              let d := cd.utf8_lossy c2
              Except.ok (some d, { s2 with text_cache := some ⟨content, enc, false, d⟩ })
      match s1.text_cache with
      | some e =>
        if e.encoded == content && (e.strict || !strict) && e.encoding == enc then
          Except.ok (some e.decoded, s1)
        else recompute
      | none => recompute

/-- The content-type triple the `set_text` fallback starts from
(line 286): the parsed current header value, else a minimal text/plain. -/
def set_text_ct (s : MessageS) : String × String × List (String × String) :=
  (parse_content_type ((hget s.headers "content-type").getD "")).getD
    ("text", "plain", [])

/-- The parameter map of the fallback content type after the charset
rewrite (line 287). -/
def set_text_ps (s : MessageS) : List (String × String) :=
  dictSet (set_text_ct s).2.2 "charset" "utf-8"

/-- The reassembled content-type header value written by the `set_text`
fallback (line 288). -/
def set_text_newct (s : MessageS) : String :=
  assemble_content_type (set_text_ct s).1 (set_text_ct s).2.1 (set_text_ps s)

/-- `Message.set_text` (lines 270-292): encode the text under the guessed
charset through the text cache; on failure rewrite the content-type
charset parameter to utf-8 (minimal text/plain when absent or unparsable)
and encode loss-tolerantly, then assign through `set_content`. -/
def set_text (cd : Codec) (t : Option String) (s : MessageS) : MessageS :=
  match t with
  | none => set_content cd none s
  | some text =>
    let enc := guess_encoding s
    let miss : MessageS :=
      match cd.encodeT text enc with
      | Except.ok encb =>
        set_content cd (some encb) { s with text_cache := some ⟨encb, enc, true, text⟩ }
      | Except.error _ =>
        let s1 := { s with
          headers := hset s.headers "content-type" (set_text_newct s) }
        let encb := cd.lossy_encode text
        set_content cd (some encb) { s1 with text_cache := some ⟨encb, "utf8", true, text⟩ }
    match s.text_cache with
    | some e =>
      if e.decoded == text && e.encoding == enc && e.strict then
        set_content cd (some e.encoded) s
      else miss
    | none => miss

/-- `Message.decode` (lines 296-306): assign the content-decoded body to
the raw body and pop the `content-encoding` header. -/
def decode (cd : Codec) (strict : Bool) (s : MessageS) : Except Unit MessageS :=
  match get_content cd strict s with
  | Except.error e => Except.error e
  | Except.ok (c, s1) =>
    Except.ok { s1 with raw_content := c, headers := hpop s1.headers "content-encoding" }

/-- `Message.encode` (lines 308-320): set the `content-encoding` header,
reassign the raw body through the content setter, and raise when the
header did not survive. -/
def encode (cd : Codec) (e : String) (s : MessageS) : Except Unit MessageS :=
  let s1 := { s with headers := hset s.headers "content-encoding" e }
  let s2 := set_content cd s1.raw_content s1
  if hcontains s2.headers "content-encoding" then Except.ok s2 else Except.error ()

/-- `Message.replace` (lines 322-341): when the content is truthy, rewrite
it through the content getter and setter, then rewrite every header
field, returning the total substitution count. -/
def replace (cd : Codec) (pat repl : Bytes) (s : MessageS) :
    Except Unit (Nat × MessageS) :=
  match get_content cd true s with
  | Except.error e => Except.error e
  | Except.ok (c, s1) =>
    if truthyB c then
      match get_content cd true s1 with
      | Except.error e => Except.error e
      | Except.ok (c2, s2) =>
        let p := subnL pat repl (c2.getD [])
        let s3 := set_content cd (some p.1) s2
        let hr := hreplace pat repl s3.headers
        Except.ok (p.2 + hr.2, { s3 with headers := hr.1 })
    else
      let hr := hreplace pat repl s1.headers
      Except.ok (hr.2, { s1 with headers := hr.1 })

/-- The value component of a content read, for observational statements. -/
def contentVal (cd : Codec) (strict : Bool) (s : MessageS) : Except Unit (Option Bytes) :=
  (get_content cd strict s).map (fun p => p.1)

/-- The value component of a text read, for observational statements. -/
def textVal (cd : Codec) (strict : Bool) (s : MessageS) : Except Unit (Option String) :=
  (get_text cd strict s).map (fun p => p.1)

end Message

end NetlibHttp

namespace NetlibHttp

/-- UTF-8 encoding of one code point. -/
def utf8EncChar (n : Nat) : Bytes :=
  if n < 0x80 then [n]
  else if n < 0x800 then [0xC0 + n / 0x40, 0x80 + n % 0x40]
  else if n < 0x10000 then
    [0xE0 + n / 0x1000, 0x80 + (n / 0x40) % 0x40, 0x80 + n % 0x40]
  else
    [0xF0 + n / 0x40000, 0x80 + (n / 0x1000) % 0x40, 0x80 + (n / 0x40) % 0x40,
      0x80 + n % 0x40]

/-- UTF-8 encoding of a string. -/
def utf8Enc (t : String) : Bytes := (t.data.map (fun c => utf8EncChar c.toNat)).flatten

/-- Is `b` a UTF-8 continuation byte? -/
def isCont (b : Nat) : Bool := 0x80 ≤ b && b < 0xC0

/-- UTF-8 decoding; `none` on malformed input. -/
def utf8Dec : Bytes → Option (List Char)
  | [] => some []
  | b :: rest =>
    if b < 0x80 then (utf8Dec rest).map (fun l => Char.ofNat b :: l)
    else if 0xC2 ≤ b && b ≤ 0xDF then
      match rest with
      | b2 :: r2 =>
        if isCont b2 then
          (utf8Dec r2).map (fun l => Char.ofNat ((b - 0xC0) * 0x40 + (b2 - 0x80)) :: l)
        else none
      | [] => none
    else if 0xE0 ≤ b && b ≤ 0xEF then
      match rest with
      | b2 :: b3 :: r3 =>
        if isCont b2 && isCont b3 then
          (utf8Dec r3).map (fun l =>
            Char.ofNat ((b - 0xE0) * 0x1000 + (b2 - 0x80) * 0x40 + (b3 - 0x80)) :: l)
        else none
      | _ => none
    else if 0xF0 ≤ b && b ≤ 0xF4 then
      match rest with
      | b2 :: b3 :: b4 :: r4 =>
        if isCont b2 && isCont b3 && isCont b4 then
          (utf8Dec r4).map (fun l =>
            Char.ofNat ((b - 0xF0) * 0x40000 + (b2 - 0x80) * 0x1000 +
              (b3 - 0x80) * 0x40 + (b4 - 0x80)) :: l)
        else none
      | _ => none
    else none

/-- Modelled from the spec: gzip framing for the Codec Port.  Only its
interface matters here: the encoded form of `b` carries the gzip magic
bytes and trailer around `b`, so its length differs from that of `b`. -/
def gzwrap (b : Bytes) : Bytes := [31, 139, 8, 0] ++ b ++ [0, 0, 0, 0, 0, 0, 0, 0]

/-- Modelled from the spec: a concrete instance of the Codec Port used for
witnesses.  It supports the identity and gzip content encodings and the
utf8, utf-8, latin-1 and ascii charsets, failing with a decoding error on
every other scheme and on corrupt input, exactly as the Codec Port
interface prescribes. -/
def testCodec : Codec where
  decodeB := fun b c =>
    if c == "identity" then Except.ok b
    else if c == "gzip" then
      if 12 ≤ b.length && b.take 4 == [31, 139, 8, 0] &&
          b.drop (b.length - 8) == [0, 0, 0, 0, 0, 0, 0, 0] then
        Except.ok ((b.drop 4).take (b.length - 12))
      else Except.error ()
    else Except.error ()
  encodeB := fun b c =>
    if c == "identity" then Except.ok b
    else if c == "gzip" then Except.ok (gzwrap b)
    else Except.error ()
  decodeT := fun b c =>
    if c == "utf8" || c == "utf-8" then
      match utf8Dec b with
      | some l => Except.ok ⟨l⟩
      | none => Except.error ()
    else if c == "latin-1" then Except.ok ⟨b.map Char.ofNat⟩
    else if c == "ascii" then
      if b.all (fun x => x < 128) then Except.ok ⟨b.map Char.ofNat⟩ else Except.error ()
    else Except.error ()
  encodeT := fun t c =>
    if c == "utf8" || c == "utf-8" then Except.ok (utf8Enc t)
    else if c == "latin-1" then
      if t.data.all (fun ch => ch.toNat < 256) then Except.ok (t.data.map Char.toNat)
      else Except.error ()
    else if c == "ascii" then
      if t.data.all (fun ch => ch.toNat < 128) then Except.ok (t.data.map Char.toNat)
      else Except.error ()
    else Except.error ()
  utf8_lossy := fun b => ⟨(utf8Dec b).getD (b.map Char.ofNat)⟩
  lossy_encode := fun t => utf8Enc t

end NetlibHttp

namespace NetlibHttp

/-- Reading a header name just written returns the written value. -/
theorem hget_hset_self (h : List (String × String)) (n v : String) :
    hget (hset h n v) n = some v := by
  induction h with
  | nil => simp [hget, hset, List.find?]
  | cons kv rest ih =>
    by_cases hk : lcase kv.1 == lcase n
    · simp [hset, hk, hget, List.find?]
    · simpa [hset, hk, hget, List.find?] using ih

/-- Deletion of one name does not change the first match of a distinct
name. -/
theorem find_hdel_other (rest : List (String × String)) (n m : String)
    (hne : lcase n ≠ lcase m) :
    List.find? (fun kv => lcase kv.1 == lcase m) (hdel rest n) =
    List.find? (fun kv => lcase kv.1 == lcase m) rest := by
  induction rest with
  | nil => simp [hdel]
  | cons kv r ih =>
    by_cases hk : lcase kv.1 == lcase n
    · have hk' : lcase kv.1 = lcase n := by simpa using hk
      have h2 : (lcase kv.1 == lcase m) = false := by
        rw [hk']; exact beq_eq_false_iff_ne.mpr hne
      simpa [hdel, hk, List.find?, h2] using ih
    · by_cases hm : lcase kv.1 == lcase m
      · simp [hdel, hk, List.find?, hm]
      · simpa [hdel, hk, List.find?, hm] using ih

/-- Deleting one header name leaves reads of a distinct name unchanged. -/
theorem hget_hdel_other (h : List (String × String)) (n m : String)
    (hne : lcase n ≠ lcase m) :
    hget (hdel h n) m = hget h m := by
  simp only [hget, find_hdel_other h n m hne]

/-- Writing one header name leaves reads of a distinct name unchanged. -/
theorem hget_hset_other (h : List (String × String)) (n v m : String)
    (hne : lcase n ≠ lcase m) :
    hget (hset h n v) m = hget h m := by
  have hb : (lcase n == lcase m) = false := beq_eq_false_iff_ne.mpr hne
  induction h with
  | nil => simp [hget, hset, List.find?, hb]
  | cons kv rest ih =>
    by_cases hk : lcase kv.1 == lcase n
    · have hk' : lcase kv.1 = lcase n := by simpa using hk
      have h2 : (lcase kv.1 == lcase m) = false := by
        rw [hk']; exact hb
      simp only [hset, hk, if_true, hget, List.find?, hb, h2]
      simp only [hget] at ih ⊢
      rw [find_hdel_other rest n m hne]
    · by_cases hm : lcase kv.1 == lcase m
      · simp [hset, hk, hget, List.find?, hm]
      · simpa [hset, hk, hget, List.find?, hm] using ih

/-- Reading a deleted header name returns absent. -/
theorem hget_hdel_self (h : List (String × String)) (n : String) :
    hget (hdel h n) n = none := by
  induction h with
  | nil => simp [hget, hdel]
  | cons kv rest ih =>
    by_cases hk : lcase kv.1 == lcase n
    · simpa [hdel, hk] using ih
    · simp only [hdel, List.filter, hk, Bool.not_false]
      simp only [hdel, hget, List.find?, hk] at ih ⊢
      exact ih

/-- Deleting an absent header name is a no-op. -/
theorem hdel_of_hget_none (h : List (String × String)) (n : String)
    (hn : hget h n = none) : hdel h n = h := by
  induction h with
  | nil => rfl
  | cons kv rest ih =>
    by_cases hk : lcase kv.1 == lcase n
    · simp [hget, List.find?, hk] at hn
    · have hrest : hget rest n = none := by
        simpa [hget, List.find?, hk] using hn
      simp only [hdel, List.filter, hk]
      simpa [hdel] using ih hrest

/-- Dictionary assignment is observable by lookup. -/
theorem dictGet_dictSet_self (d : List (String × String)) (k v : String) :
    dictGet (dictSet d k v) k = some v := by
  induction d with
  | nil => simp [dictGet, dictSet, List.find?]
  | cons kv rest ih =>
    by_cases hk : kv.1 == k
    · simp [dictSet, hk, dictGet, List.find?]
    · simpa [dictSet, hk, dictGet, List.find?] using ih

end NetlibHttp

namespace NetlibHttp

/-- A message whose body is one invalid UTF-8 byte under an unsupported
content encoding and a json content type. -/
def msgBadUtf8Json : MessageS :=
  ⟨some [255], [("content-encoding", "br"), ("content-type", "application/json")],
    none, none⟩

/-- A message with an empty body under a gzip content encoding. -/
def msgGzipEmpty : MessageS := ⟨some [], [("content-encoding", "gzip")], none, none⟩

/-- A message with no body and no headers. -/
def msgNoBody : MessageS := ⟨none, [], none, none⟩

/-- The replace example message: body hello world, header X-Test: hello. -/
def msgReplaceExample : MessageS :=
  ⟨some (strToBytes "hello world"), [("X-Test", "hello")], none, none⟩

/-- A message with an empty (but present) body under an unsupported
content encoding, plus one substitutable header. -/
def msgEmptyBadCE : MessageS :=
  ⟨some [], [("content-encoding", "br"), ("x-test", "hello")], none, none⟩

/-- C3.  The claim says `getText(strict=False)` never raises for encoding
or charset problems.  On this message the content-encoding is invalid
(so the lenient content read passes the raw bytes through with a
non-strict cache cell) and the guessed utf8 charset fails on those bytes;
the fallback at line 266 of `message.py` then reads `self.content`, the
STRICT content getter, which re-runs the invalid decode and raises.  The
method docstring promises a `ValueError` only when `strict` is true, so
the code contradicts its own documentation: a code bug, demonstrated here
by evaluating the embedded code at the failing input. -/
theorem C3_code_bug_lenient_get_text_raises :
    Message.get_text testCodec false msgBadUtf8Json = Except.error () := by rfl

/-- C9.  `replace` on a message with body hello world and header
X-Test: hello, substituting hello with bye, returns 2 (one body
substitution plus one header substitution), leaves the body as bye world
and the header value as bye. -/
theorem C9_replace_example_count_two :
    (Message.replace testCodec (strToBytes "hello") (strToBytes "bye")
        msgReplaceExample).map
      (fun p => (p.1, p.2.raw_content, hget p.2.headers "x-test")) =
    Except.ok (2, some (strToBytes "bye world"), some "bye") := by rfl

/-- C7.  The claim says `encode(scheme)` with an invalid scheme raises
and leaves `content-encoding` absent for every message.  With an absent
body, `set_content(None)` returns before the header-removal branch, the
freshly written invalid header survives, and line 319 therefore does not
raise: the call succeeds and leaves `content-encoding` set to the invalid
scheme, contradicting the docstring of `encode` (Raises ValueError when
the specified content-encoding is invalid).  A code bug, demonstrated by
evaluating the embedded code at the failing input. -/
theorem C7_code_bug_encode_no_body_no_raise :
    Message.encode testCodec "br" msgNoBody =
      Except.ok ⟨none, [("content-encoding", "br")], none, none⟩ ∧
    hget [("content-encoding", "br")] "content-encoding" = some "br" :=
  And.intro (by rfl) (by rfl)

/-- C4, counterexample.  The claim says `content-length` equals the length
of the written value regardless of the `content-encoding` header.  Under a
gzip content encoding the raw body is the encoded form, whose length (13
for the one-byte value here) is what `content-length` records. -/
theorem C4_counterexample_gzip_length :
    hget (Message.set_content testCodec (some [120]) msgGzipEmpty).headers
      "content-length" = some "13" ∧
    toString ([120] : Bytes).length = "1" ∧ ("13" : String) ≠ "1" :=
  And.intro (by rfl) (And.intro (by rfl) (by decide))

/-- C10, counterexample.  The claim says a message with an absent or empty
body gets only its headers substituted.  With an empty (present) body and
an invalid content encoding, `if self.content:` runs the strict content
getter, which raises before any substitution: `replace` propagates the
error instead of substituting the header. -/
theorem C10_counterexample_empty_body_raises :
    Message.replace testCodec (strToBytes "hello") (strToBytes "bye") msgEmptyBadCE =
      Except.error () := by rfl

end NetlibHttp

namespace NetlibHttp

/-- Soundness of the content cache, an invariant of every cache cell the
program itself writes (lines 148-152 and 171-180 of `message.py`): a
non-strict cell records a pass-through (its output equals its input); a
strict cell under an absent or blank encoding likewise; and a strict cell
under a real encoding records a successful decode of its input. -/
def CacheSound (cd : Codec) (s : MessageS) : Prop :=
  ∀ e, s.content_cache = some e →
    (e.strict = false → e.decoded = e.encoded) ∧
    (e.strict = true → truthyO e.encoding = false → e.decoded = e.encoded) ∧
    (e.strict = true → ∀ c, e.encoding = some c → c ≠ "" →
      cd.decodeB e.encoded c = Except.ok e.decoded)

/-- C1.  When the body is present and the `content-encoding` header names
a scheme whose decode fails, the lenient content read does not raise: it
returns the raw bytes unchanged and the resulting cache cell is
non-strict. -/
theorem C1_lenient_get_content_pass_through
    (cd : Codec) (s : MessageS) (raw : Bytes) (c : String)
    (hs : CacheSound cd s)
    (hraw : s.raw_content = some raw)
    (hce : hget s.headers "content-encoding" = some c)
    (hne : c ≠ "")
    (hdec : cd.decodeB raw c = Except.error ()) :
    ∃ e : CEntry,
      Message.get_content cd false s =
        Except.ok (some raw, { s with content_cache := some e }) ∧
      e.strict = false ∧ e.decoded = raw := by
  have hcb : (c == "") = false := beq_eq_false_iff_ne.mpr hne
  rcases hc : s.content_cache with _ | e0
  · refine ⟨⟨raw, some c, false, raw⟩, ?_, rfl, rfl⟩
    simp [Message.get_content, hraw, Message.get_content_core, hce, hc, hcb, hdec,
      Except.map]
  · by_cases hhit : (e0.encoded == raw && e0.encoding == some c : Bool)
    · have henc : e0.encoded = raw := by
        have := (Bool.and_eq_true _ _).mp hhit
        simpa using this.1
      have henco : e0.encoding = some c := by
        have := (Bool.and_eq_true _ _).mp hhit
        simpa using this.2
      have hstrict : e0.strict = false := by
        cases hst : e0.strict
        · rfl
        · have := (hs e0 hc).2.2 hst c henco hne
          rw [henc, hdec] at this
          exact Except.noConfusion this
      have hdecoded : e0.decoded = raw := by
        rw [(hs e0 hc).1 hstrict, henc]
      have hseq : { s with content_cache := some e0 } = s := by
        rw [← hc]
      refine ⟨e0, ?_, hstrict, hdecoded⟩
      rw [hseq]
      simp [Message.get_content, hraw, Message.get_content_core, hce, hc, henc, henco,
        hdecoded, Except.map]
    · refine ⟨⟨raw, some c, false, raw⟩, ?_, rfl, rfl⟩
      have hprop : ¬(e0.encoded = raw ∧ e0.encoding = some c) := by
        simpa using hhit
      simp [Message.get_content, hraw, Message.get_content_core, hce, hc, hprop, hcb,
        hdec, Except.map]

end NetlibHttp

namespace NetlibHttp

/-- A message whose body is one invalid UTF-8 byte under an unsupported
content encoding. -/
def msgBadCE : MessageS := ⟨some [255], [("content-encoding", "br")], none, none⟩

/-- Witness for C1: the lenient read of `msgBadCE` under the concrete
codec passes the raw byte through with a non-strict cache cell. -/
theorem C1_witness :
    ∃ e : CEntry,
      Message.get_content testCodec false msgBadCE =
        Except.ok (some [255], { msgBadCE with content_cache := some e }) ∧
      e.strict = false ∧ e.decoded = [255] :=
  C1_lenient_get_content_pass_through testCodec msgBadCE [255] "br"
    (fun e h => nomatch h) rfl (by rfl) (by decide) (by rfl)

/-- C5.  Writing bytes while the `content-encoding` header names an
invalid scheme does not fail: the header is removed entirely, the value
is used unmodified as the raw body, and the cache records the value as a
strict identity result (with `content-length` rewritten to its length). -/
theorem C5_set_content_invalid_scheme_recovery
    (cd : Codec) (s : MessageS) (v : Bytes) (c : String)
    (hs : CacheSound cd s)
    (hce : hget s.headers "content-encoding" = some c)
    (hne : c ≠ "")
    (hdecAll : ∀ b, cd.decodeB b c = Except.error ())
    (henc : cd.encodeB v c = Except.error ()) :
    Message.set_content cd (some v) s =
      { s with
        raw_content := some v,
        headers := hset (hdel s.headers "content-encoding") "content-length"
          (toString v.length),
        content_cache := some ⟨v, none, true, v⟩ } ∧
    hget (Message.set_content cd (some v) s).headers "content-encoding" = none := by
  have hcb : (c == "") = false := beq_eq_false_iff_ne.mpr hne
  have hmain : Message.set_content cd (some v) s =
      { s with
        raw_content := some v,
        headers := hset (hdel s.headers "content-encoding") "content-length"
          (toString v.length),
        content_cache := some ⟨v, none, true, v⟩ } := by
    rcases hc : s.content_cache with _ | e0
    · simp [Message.set_content, ceIdent, hce, hc, hcb, henc]
    · have hmiss : ¬(e0.decoded = v ∧ e0.encoding = some c ∧ e0.strict = true) := by
        rintro ⟨hd, henco, hst⟩
        have := (hs e0 hc).2.2 hst c henco hne
        rw [hdecAll e0.encoded] at this
        exact Except.noConfusion this
      simp [Message.set_content, ceIdent, hce, hc, hcb, henc, hmiss]
      intro hd henco hst
      exact absurd ⟨hd, henco, hst⟩ hmiss
  refine ⟨hmain, ?_⟩
  rw [hmain]
  have hne2 : lcase "content-length" ≠ lcase "content-encoding" := by decide
  rw [show ({ s with
        raw_content := some v,
        headers := hset (hdel s.headers "content-encoding") "content-length"
          (toString v.length),
        content_cache := some ⟨v, none, true, v⟩ } : MessageS).headers =
      hset (hdel s.headers "content-encoding") "content-length" (toString v.length) from rfl]
  rw [hget_hset_other _ _ _ _ hne2, hget_hdel_self]

/-- A message with one byte of body under an unsupported content
encoding, for the C5 witness. -/
def msgOneByteBadCE : MessageS := ⟨some [1], [("content-encoding", "br")], none, none⟩

/-- Witness for C5 at a concrete message, value and codec. -/
theorem C5_witness :
    Message.set_content testCodec (some [7]) msgOneByteBadCE =
      { msgOneByteBadCE with
        raw_content := some [7],
        headers := hset (hdel msgOneByteBadCE.headers "content-encoding") "content-length"
          (toString ([7] : Bytes).length),
        content_cache := some ⟨[7], none, true, [7]⟩ } ∧
    hget (Message.set_content testCodec (some [7]) msgOneByteBadCE).headers
      "content-encoding" = none :=
  C5_set_content_invalid_scheme_recovery testCodec msgOneByteBadCE [7] "br"
    (fun e h => nomatch h) (by rfl) (by decide) (fun b => by rfl) (by rfl)

end NetlibHttp

namespace NetlibHttp

/-- The content layer neither reads nor keeps the text cache: running it
on a state with a replaced text cache gives the same outcome with the
same replacement. -/
theorem get_content_core_text_cache (cd : Codec) (strict : Bool) (raw : Bytes)
    (s : MessageS) (tc : Option TEntry) :
    Message.get_content_core cd strict raw { s with text_cache := tc } =
      (Message.get_content_core cd strict raw s).map
        (fun p => (p.1, { p.2 with text_cache := tc })) := by
  unfold Message.get_content_core
  cases hc : s.content_cache with
  | none =>
    cases hce : hget s.headers "content-encoding" with
    | none => simp [hc, hce, Except.map]
    | some c =>
      by_cases hcb : (c == "")
      · simp [hc, hce, hcb, Except.map]
      · cases hdec : cd.decodeB raw c with
        | ok d => simp [hc, hce, hcb, hdec, Except.map]
        | error err =>
          cases strict <;> simp [hc, hce, hcb, hdec, Except.map]
  | some e =>
    cases hce : hget s.headers "content-encoding" with
    | none =>
      by_cases hhit : (e.encoded == raw && (e.strict || !strict) && e.encoding == none)
      · simp [hc, hce, hhit, Except.map]
      · simp [hc, hce, hhit, Except.map]
    | some c =>
      by_cases hhit : (e.encoded == raw && (e.strict || !strict) && e.encoding == some c)
      · simp [hc, hce, hhit, Except.map]
      · by_cases hcb : (c == "")
        · simp [hc, hce, hhit, Except.map, hcb]
        · cases hdec : cd.decodeB raw c with
          | ok d => simp [hc, hce, hhit, Except.map, hcb, hdec]
          | error err =>
            cases strict <;>
              · simp [hc, hce, Except.map, hcb, hdec]
                split <;> simp [Except.map, hc]

end NetlibHttp

namespace NetlibHttp

/-- A successful content-layer read changes at most the content cache. -/
theorem get_content_core_shape (cd : Codec) (strict : Bool) (raw : Bytes)
    (s : MessageS) (x : Bytes) (s1 : MessageS)
    (h : Message.get_content_core cd strict raw s = Except.ok (x, s1)) :
    ∃ u, s1 = { s with content_cache := u } := by
  unfold Message.get_content_core at h
  cases hc : s.content_cache with
  | none =>
    rw [hc] at h
    cases hce : hget s.headers "content-encoding" with
    | none =>
      rw [hce] at h
      simp at h
      exact ⟨some ⟨raw, none, true, raw⟩, h.2.symm⟩
    | some c =>
      rw [hce] at h
      by_cases hcb : (c == "")
      · simp [hcb] at h
        exact ⟨some ⟨raw, some c, true, raw⟩, h.2.symm⟩
      · cases hdec : cd.decodeB raw c with
        | ok d =>
          simp [hcb, hdec] at h
          exact ⟨some ⟨raw, some c, true, d⟩, h.2.symm⟩
        | error err =>
          cases strict
          · simp [hcb, hdec] at h
            exact ⟨some ⟨raw, some c, false, raw⟩, h.2.symm⟩
          · simp [hcb, hdec] at h
  | some e =>
    rw [hc] at h
    dsimp only [] at h
    by_cases hhit : (e.encoded == raw && (e.strict || !strict) &&
        e.encoding == hget s.headers "content-encoding")
    · rw [if_pos hhit] at h
      refine ⟨some e, ?_⟩
      have hs1 : s1 = s := by
        have := (Except.ok.injEq _ _).mp h
        exact congrArg Prod.snd this.symm
      rw [hs1, ← hc]
    · rw [if_neg hhit] at h
      cases hce : hget s.headers "content-encoding" with
      | none =>
        rw [hce] at h
        simp at h
        exact ⟨some ⟨raw, none, true, raw⟩, h.2.symm⟩
      | some c =>
        rw [hce] at h
        by_cases hcb : (c == "")
        · simp [hcb] at h
          exact ⟨some ⟨raw, some c, true, raw⟩, h.2.symm⟩
        · cases hdec : cd.decodeB raw c with
          | ok d =>
            simp [hcb, hdec] at h
            exact ⟨some ⟨raw, some c, true, d⟩, h.2.symm⟩
          | error err =>
            cases strict
            · simp [hcb, hdec] at h
              exact ⟨some ⟨raw, some c, false, raw⟩, h.2.symm⟩
            · simp [hcb, hdec] at h

end NetlibHttp

namespace NetlibHttp

/-- C2.  A cache cell computed leniently is never used to answer a strict
call: with a non-strict content (resp. text) cache cell, the strict
content (resp. text) read returns exactly what it would return with that
cache cleared, recomputing the transform instead of replaying the lenient
cached output. -/
theorem C2_nonstrict_cache_not_reused_for_strict (cd : Codec) (s : MessageS) :
    (∀ e, s.content_cache = some e → e.strict = false →
      Message.contentVal cd true s =
        Message.contentVal cd true { s with content_cache := none }) ∧
    (∀ e, s.text_cache = some e → e.strict = false →
      Message.textVal cd true s =
        Message.textVal cd true { s with text_cache := none }) := by
  constructor
  · intro e hc hst
    cases hraw : s.raw_content with
    | none => simp [Message.contentVal, Message.get_content, hraw, Except.map]
    | some raw =>
      simp only [Message.contentVal, Message.get_content, hraw]
      unfold Message.get_content_core
      simp only [hc, hst]
      cases hce : hget s.headers "content-encoding" with
      | none => simp [hce, Except.map]
      | some c =>
        by_cases hcb : (c == "")
        · simp [hce, hcb, Except.map]
        · cases hdec : cd.decodeB raw c with
          | ok d => simp [hce, hcb, hdec, Except.map]
          | error err => simp [hce, hcb, hdec, Except.map]
  · intro e hc hst
    obtain ⟨rc, hd, cc, tc⟩ := s
    simp only at hc
    subst hc
    rcases rc with _ | raw
    · simp [Message.textVal, Message.get_text, Except.map]
    · simp only [Message.textVal, Message.get_text]
      rw [show Message.get_content_core cd true raw ⟨some raw, hd, cc, none⟩ =
          (Message.get_content_core cd true raw ⟨some raw, hd, cc, some e⟩).map
            (fun p => (p.1, { p.2 with text_cache := none })) from
        get_content_core_text_cache cd true raw ⟨some raw, hd, cc, some e⟩ none]
      cases hcore : Message.get_content_core cd true raw ⟨some raw, hd, cc, some e⟩ with
      | error err => simp [Except.map]
      | ok p =>
        obtain ⟨content, s1⟩ := p
        obtain ⟨u, rfl⟩ :=
          get_content_core_shape cd true raw ⟨some raw, hd, cc, some e⟩ content s1 hcore
        simp only [Except.map]
        simp only [hst]
        rw [show Message.guess_encoding ⟨some raw, hd, cc, none⟩ =
          Message.guess_encoding ⟨some raw, hd, cc, some e⟩ from rfl]
        cases hdect : cd.decodeT content
            (Message.guess_encoding ⟨some raw, hd, cc, some e⟩) with
        | ok d => simp [hdect, Except.map]
        | error err => simp [hdect, Except.map]

end NetlibHttp

namespace NetlibHttp

/-- A message whose two cache cells are both populated non-strictly, for
the C2 witness. -/
def msgNonstrictCaches : MessageS :=
  ⟨some [255], [("content-encoding", "br")],
    some ⟨[255], some "br", false, [255]⟩, some ⟨[255], "latin-1", false, "x"⟩⟩

/-- Witness for C2 at a concrete message whose content and text cache
cells are both non-strict. -/
theorem C2_witness :
    Message.contentVal testCodec true msgNonstrictCaches =
      Message.contentVal testCodec true
        { msgNonstrictCaches with content_cache := none } ∧
    Message.textVal testCodec true msgNonstrictCaches =
      Message.textVal testCodec true { msgNonstrictCaches with text_cache := none } :=
  ⟨(C2_nonstrict_cache_not_reused_for_strict testCodec msgNonstrictCaches).1
      ⟨[255], some "br", false, [255]⟩ rfl rfl,
    (C2_nonstrict_cache_not_reused_for_strict testCodec msgNonstrictCaches).2
      ⟨[255], "latin-1", false, "x"⟩ rfl rfl⟩

/-- Exhaustive case analysis of a successful `set_content` write: the
text-cache short cut, the successful encode and the failed encode each
give a fully explicit result state. -/
theorem set_content_cases (cd : Codec) (v : Bytes) (s : MessageS) :
    (∃ e0 : CEntry, s.content_cache = some e0 ∧ e0.decoded = v ∧
      e0.encoding = hget s.headers "content-encoding" ∧ e0.strict = true ∧
      Message.set_content cd (some v) s =
        { s with
          content_cache := some e0
          raw_content := some e0.encoded
          headers := hset s.headers "content-length" (toString e0.encoded.length) }) ∨
    (∃ enc : Bytes,
      cd.encodeB v (ceIdent (hget s.headers "content-encoding")) = Except.ok enc ∧
      Message.set_content cd (some v) s =
        { s with
          content_cache := some ⟨enc, hget s.headers "content-encoding", true, v⟩
          raw_content := some enc
          headers := hset s.headers "content-length" (toString enc.length) }) ∨
    (cd.encodeB v (ceIdent (hget s.headers "content-encoding")) = Except.error () ∧
      Message.set_content cd (some v) s =
        { s with
          content_cache := some ⟨v, none, true, v⟩
          raw_content := some v
          headers := hset (hdel s.headers "content-encoding") "content-length"
            (toString v.length) }) := by
  rcases hc : s.content_cache with _ | e0
  · cases henc : cd.encodeB v (ceIdent (hget s.headers "content-encoding")) with
    | ok enc =>
      refine Or.inr (Or.inl ⟨enc, rfl, ?_⟩)
      simp [Message.set_content, hc, henc]
    | error err =>
      refine Or.inr (Or.inr ⟨rfl, ?_⟩)
      simp [Message.set_content, hc, henc]
  · by_cases hhit : (e0.decoded == v && e0.encoding == hget s.headers "content-encoding"
        && e0.strict)
    · have h1 : e0.decoded = v := by
        have := (Bool.and_eq_true _ _).mp hhit
        have := (Bool.and_eq_true _ _).mp this.1
        simpa using this.1
      have h2 : e0.encoding = hget s.headers "content-encoding" := by
        have := (Bool.and_eq_true _ _).mp hhit
        have := (Bool.and_eq_true _ _).mp this.1
        simpa using this.2
      have h3 : e0.strict = true := by
        have := (Bool.and_eq_true _ _).mp hhit
        exact this.2
      refine Or.inl ⟨e0, rfl, h1, h2, h3, ?_⟩
      simp [Message.set_content, hc, h1, h2, h3]
    · have hmiss : ¬(e0.decoded = v ∧
          e0.encoding = hget s.headers "content-encoding" ∧ e0.strict = true) := by
        rintro ⟨h1, h2, h3⟩
        exact hhit (by simp [h1, h2, h3])
      cases henc : cd.encodeB v (ceIdent (hget s.headers "content-encoding")) with
      | ok enc =>
        refine Or.inr (Or.inl ⟨enc, rfl, ?_⟩)
        simp [Message.set_content, hc, henc, hmiss]
        intro h1 h2 h3
        exact absurd ⟨h1, h2, h3⟩ hmiss
      | error err =>
        refine Or.inr (Or.inr ⟨rfl, ?_⟩)
        simp [Message.set_content, hc, henc, hmiss]
        intro h1 h2 h3
        exact absurd ⟨h1, h2, h3⟩ hmiss

end NetlibHttp

namespace NetlibHttp

/-- Reading the content back strictly right after a successful write
returns the written value and leaves the state unchanged: every branch of
`set_content` installs a strict cache cell keyed on the new raw body and
the surviving `content-encoding` header. -/
theorem set_content_get (cd : Codec) (v : Bytes) (s : MessageS) :
    Message.get_content cd true (Message.set_content cd (some v) s) =
      Except.ok (some v, Message.set_content cd (some v) s) := by
  have hne : lcase "content-length" ≠ lcase "content-encoding" := by decide
  rcases set_content_cases cd v s with ⟨e0, hc, h1, h2, h3, heq⟩ | ⟨enc, henc, heq⟩ |
    ⟨henc, heq⟩
  · rw [heq]
    simp [Message.get_content, Message.get_content_core,
      hget_hset_other s.headers "content-length" (toString e0.encoded.length)
        "content-encoding" hne, ← h2, h3, h1, Except.map]
  · rw [heq]
    simp [Message.get_content, Message.get_content_core,
      hget_hset_other s.headers "content-length" (toString enc.length)
        "content-encoding" hne, Except.map]
  · rw [heq]
    simp [Message.get_content, Message.get_content_core,
      hget_hset_other (hdel s.headers "content-encoding") "content-length"
        (toString v.length) "content-encoding" hne, hget_hdel_self, Except.map]

/-- C4, amended.  After `setContent(b)` the `content-length` header equals
the byte length of the resulting raw body (the encoded form of `b`); it
equals `len(b)` itself when the `content-encoding` header is absent, but
not in general.  (The counterexample shows a gzip header making the two
lengths differ.) -/
theorem C4_amended_content_length_tracks_raw (cd : Codec) (v : Bytes) (s : MessageS)
    (hs : CacheSound cd s)
    (hid : ∀ b, cd.encodeB b "identity" = Except.ok b) :
    ∃ r : Bytes, (Message.set_content cd (some v) s).raw_content = some r ∧
      hget (Message.set_content cd (some v) s).headers "content-length" =
        some (toString r.length) ∧
      (hget s.headers "content-encoding" = none → r = v) := by
  rcases set_content_cases cd v s with ⟨e0, hc, h1, h2, h3, heq⟩ | ⟨enc, henc, heq⟩ |
    ⟨henc, heq⟩
  · refine ⟨e0.encoded, ?_, ?_, ?_⟩
    · rw [heq]
    · rw [heq]
      exact hget_hset_self _ _ _
    · intro hceo
      have henco : e0.encoding = none := by rw [h2, hceo]
      have := (hs e0 hc).2.1 h3 (by rw [henco]; rfl)
      rw [← h1, this]
  · refine ⟨enc, ?_, ?_, ?_⟩
    · rw [heq]
    · rw [heq]
      exact hget_hset_self _ _ _
    · intro hceo
      rw [hceo] at henc
      have := hid v
      rw [ceIdent] at henc
      rw [this] at henc
      exact (Except.ok.injEq _ _).mp henc.symm
  · refine ⟨v, ?_, ?_, fun _ => rfl⟩
    · rw [heq]
    · rw [heq]
      exact hget_hset_self _ _ _

/-- Witness for C4 (amended) at a concrete message with no
`content-encoding` header. -/
theorem C4_amended_witness :
    ∃ r : Bytes,
      (Message.set_content testCodec (some [120]) msgNoBody).raw_content = some r ∧
      hget (Message.set_content testCodec (some [120]) msgNoBody).headers
        "content-length" = some (toString r.length) ∧
      (hget msgNoBody.headers "content-encoding" = none → r = [120]) :=
  C4_amended_content_length_tracks_raw testCodec [120] msgNoBody
    (fun _ h => nomatch h) (fun _ => rfl)

end NetlibHttp

namespace NetlibHttp

/-- Under a scheme whose decode always fails, the strict content read of a
present body fails, provided the cache is sound (a strict cache cell under
that scheme would certify a successful decode). -/
theorem get_content_strict_invalid_scheme (cd : Codec) (s : MessageS) (raw : Bytes)
    (c : String)
    (hs : CacheSound cd s)
    (hraw : s.raw_content = some raw)
    (hce : hget s.headers "content-encoding" = some c)
    (hne : c ≠ "")
    (hdecAll : ∀ b, cd.decodeB b c = Except.error ()) :
    Message.get_content cd true s = Except.error () := by
  have hcb : (c == "") = false := beq_eq_false_iff_ne.mpr hne
  rcases hc : s.content_cache with _ | e0
  · simp [Message.get_content, hraw, Message.get_content_core, hce, hc, hcb,
      hdecAll raw, Except.map]
  · have hmiss : ¬(e0.encoded = raw ∧ e0.strict = true ∧ e0.encoding = some c) := by
      rintro ⟨h1, h2, h3⟩
      have := (hs e0 hc).2.2 h2 c h3 hne
      rw [hdecAll e0.encoded] at this
      exact Except.noConfusion this
    have hcond : ¬((e0.encoded == raw && (e0.strict || !true) && e0.encoding == some c)
        = true) := by
      intro hb
      simp only [Bool.not_true, Bool.or_false, Bool.and_eq_true, beq_iff_eq] at hb
      exact hmiss ⟨hb.1.1, hb.1.2, hb.2⟩
    simp [Message.get_content, hraw, Message.get_content_core, hce, hc, hcb,
      hdecAll raw, Except.map, hcond]
    rw [if_neg (show ¬((e0.encoded = raw ∧ e0.strict = true) ∧ e0.encoding = some c) by
      rintro ⟨⟨h1, h2⟩, h3⟩
      exact hmiss ⟨h1, h2, h3⟩)]

/-- C10, amended.  `replace` accesses the body strictly: a message whose
body is present (even empty) under a scheme whose decode fails makes
`replace` raise before any substitution, and only a message with an
absent body gets just its headers substituted, the count then being the
header count alone. -/
theorem C10_amended_replace_strict_body (cd : Codec) (s : MessageS) (pat repl : Bytes) :
    (∀ raw c, CacheSound cd s → s.raw_content = some raw →
      hget s.headers "content-encoding" = some c → c ≠ "" →
      (∀ b, cd.decodeB b c = Except.error ()) →
      Message.replace cd pat repl s = Except.error ()) ∧
    (s.raw_content = none →
      Message.replace cd pat repl s =
        Except.ok ((hreplace pat repl s.headers).2,
          { s with headers := (hreplace pat repl s.headers).1 })) := by
  constructor
  · intro raw c hs hraw hce hne hdecAll
    have := get_content_strict_invalid_scheme cd s raw c hs hraw hce hne hdecAll
    simp [Message.replace, this]
  · intro hraw
    simp [Message.replace, Message.get_content, hraw, Except.map, truthyB]

/-- A message with an absent body and one substitutable header, for the
C10 witness. -/
def msgNoBodyHeaderOnly : MessageS := ⟨none, [("x-test", "hello")], none, none⟩

/-- Witness for C10 (amended) at a concrete message with an absent body:
only the header is substituted and the count is the header count. -/
theorem C10_amended_witness :
    Message.replace testCodec (strToBytes "hello") (strToBytes "bye")
        msgNoBodyHeaderOnly =
      Except.ok ((hreplace (strToBytes "hello") (strToBytes "bye")
          msgNoBodyHeaderOnly.headers).2,
        { msgNoBodyHeaderOnly with
          headers := (hreplace (strToBytes "hello") (strToBytes "bye")
            msgNoBodyHeaderOnly.headers).1 }) :=
  (C10_amended_replace_strict_body testCodec msgNoBodyHeaderOnly
    (strToBytes "hello") (strToBytes "bye")).2 rfl

end NetlibHttp

namespace NetlibHttp

/-- After a successful strict content-layer read, the content cache holds
a strict cell whose output is the returned value. -/
theorem get_content_core_strict_ok (cd : Codec) (raw : Bytes) (s : MessageS)
    (x : Bytes) (s1 : MessageS)
    (h : Message.get_content_core cd true raw s = Except.ok (x, s1)) :
    ∃ e1, s1.content_cache = some e1 ∧ e1.strict = true ∧ e1.decoded = x := by
  unfold Message.get_content_core at h
  cases hc : s.content_cache with
  | none =>
    rw [hc] at h
    dsimp only [] at h
    cases hce : hget s.headers "content-encoding" with
    | none =>
      rw [hce] at h
      simp at h
      exact ⟨⟨raw, none, true, raw⟩, by rw [← h.2], rfl, by simp [h.1]⟩
    | some c =>
      rw [hce] at h
      dsimp only [] at h
      by_cases hcb : ((c == "") = true)
      · rw [if_pos hcb] at h
        simp at h
        exact ⟨⟨raw, some c, true, raw⟩, by rw [← h.2], rfl, by simp [h.1]⟩
      · rw [if_neg hcb] at h
        cases hdec : cd.decodeB raw c with
        | ok d =>
          rw [hdec] at h
          simp at h
          exact ⟨⟨raw, some c, true, d⟩, by rw [← h.2], rfl, by simp [h.1]⟩
        | error err =>
          rw [hdec] at h
          simp at h
  | some e =>
    rw [hc] at h
    dsimp only [] at h
    by_cases hhit : ((e.encoded == raw && (e.strict || !true) &&
        e.encoding == hget s.headers "content-encoding") = true)
    · rw [if_pos hhit] at h
      have hst : e.strict = true := by
        have := (Bool.and_eq_true _ _).mp ((Bool.and_eq_true _ _).mp hhit).1
        simpa using this.2
      simp at h
      refine ⟨e, ?_, hst, ?_⟩
      · rw [← h.2, hc]
      · exact h.1
    · rw [if_neg hhit] at h
      cases hce : hget s.headers "content-encoding" with
      | none =>
        rw [hce] at h
        simp at h
        exact ⟨⟨raw, none, true, raw⟩, by rw [← h.2], rfl, by simp [h.1]⟩
      | some c =>
        rw [hce] at h
        dsimp only [] at h
        by_cases hcb : ((c == "") = true)
        · rw [if_pos hcb] at h
          simp at h
          exact ⟨⟨raw, some c, true, raw⟩, by rw [← h.2], rfl, by simp [h.1]⟩
        · rw [if_neg hcb] at h
          cases hdec : cd.decodeB raw c with
          | ok d =>
            rw [hdec] at h
            simp at h
            exact ⟨⟨raw, some c, true, d⟩, by rw [← h.2], rfl, by simp [h.1]⟩
          | error err =>
            rw [hdec] at h
            simp at h

end NetlibHttp

namespace NetlibHttp

/-- Decoding a message whose `content-encoding` header is already absent
leaves its body and headers unchanged and preserves the observable
content, provided the content cache holds a strict cell whose output is
the body (as it does right after a successful strict decode). -/
theorem decode_no_ce_preserves (cd : Codec) (t : MessageS) (d : Bytes) (e1 : CEntry)
    (hraw : t.raw_content = some d)
    (hce : hget t.headers "content-encoding" = none)
    (hc : t.content_cache = some e1)
    (hdec : e1.decoded = d) :
    ∃ t2, Message.decode cd true t = Except.ok t2 ∧
      t2.raw_content = t.raw_content ∧ t2.headers = t.headers ∧
      Message.contentVal cd true t2 = Message.contentVal cd true t := by
  have hpop_eq : hpop t.headers "content-encoding" = t.headers :=
    hdel_of_hget_none _ _ hce
  by_cases hhit : ((e1.encoded == d && (e1.strict || !true) && e1.encoding == none) = true)
  · have hget_t : Message.get_content cd true t = Except.ok (some d, t) := by
      simp only [Message.get_content, hraw]
      unfold Message.get_content_core
      rw [hce, hc]
      dsimp only []
      rw [if_pos hhit]
      simp [hdec, Except.map]
    refine ⟨t, ?_, rfl, rfl, rfl⟩
    simp only [Message.decode, hget_t]
    rw [show ({ t with
        raw_content := some d
        headers := hpop t.headers "content-encoding" } : MessageS) = t by
      rw [hpop_eq, ← hraw]]
  · have hget_t : Message.get_content cd true t =
        Except.ok (some d, { t with content_cache := some ⟨d, none, true, d⟩ }) := by
      simp only [Message.get_content, hraw]
      unfold Message.get_content_core
      rw [hce, hc]
      dsimp only []
      rw [if_neg hhit]
      simp [Except.map, hraw]
    refine ⟨{ t with content_cache := some ⟨d, none, true, d⟩ }, ?_, rfl, ?_, ?_⟩
    · simp only [Message.decode, hget_t]
      simp [hpop_eq, hraw]
    · rfl
    · have hget_t2 : Message.contentVal cd true
          { t with content_cache := some ⟨d, none, true, d⟩ } =
          Except.ok (some d) := by
        simp [Message.contentVal, Message.get_content, hraw,
          Message.get_content_core, hce, Except.map]
      rw [hget_t2]
      simp [Message.contentVal, hget_t, Except.map]

end NetlibHttp

namespace NetlibHttp

/-- C6.  A successful strict `decode` sets the raw body to the
content-encoding-decoded bytes (the strict content read) and removes the
`content-encoding` header; it is idempotent: decoding again succeeds,
changes neither body nor headers, and the content read afterwards is the
same. -/
theorem C6_decode_strict_removes_header_idempotent (cd : Codec) (s s1 : MessageS)
    (h : Message.decode cd true s = Except.ok s1) :
    hget s1.headers "content-encoding" = none ∧
    Message.contentVal cd true s = Except.ok s1.raw_content ∧
    ∃ s2, Message.decode cd true s1 = Except.ok s2 ∧
      s2.raw_content = s1.raw_content ∧ s2.headers = s1.headers ∧
      Message.contentVal cd true s2 = Message.contentVal cd true s1 := by
  unfold Message.decode at h
  cases hg : Message.get_content cd true s with
  | error err =>
    rw [hg] at h
    exact Except.noConfusion h
  | ok p =>
    obtain ⟨c, sA⟩ := p
    rw [hg] at h
    dsimp only [] at h
    have hs1 : s1 = { sA with
        raw_content := c
        headers := hpop sA.headers "content-encoding" } :=
      ((Except.ok.injEq _ _).mp h).symm
    have hce1 : hget s1.headers "content-encoding" = none := by
      rw [hs1]
      exact hget_hdel_self _ _
    refine ⟨hce1, ?_, ?_⟩
    · simp [Message.contentVal, hg, hs1, Except.map]
    · cases hcv : c with
      | none =>
        have hs1raw : s1.raw_content = none := by rw [hs1, hcv]
        refine ⟨s1, ?_, rfl, rfl, rfl⟩
        simp only [Message.decode, Message.get_content, hs1raw]
        rw [show hpop s1.headers "content-encoding" = s1.headers from
          hdel_of_hget_none _ _ hce1]
        rw [← hs1raw]
      | some d =>
        cases hraw : s.raw_content with
        | none =>
          rw [Message.get_content, hraw] at hg
          dsimp only [] at hg
          have := ((Except.ok.injEq _ _).mp hg)
          rw [hcv] at this
          exact Option.noConfusion (congrArg Prod.fst this)
        | some raw =>
          rw [Message.get_content, hraw] at hg
          dsimp only [] at hg
          cases hcore : Message.get_content_core cd true raw s with
          | error err =>
            rw [hcore] at hg
            exact Except.noConfusion hg
          | ok q =>
            obtain ⟨x, sA'⟩ := q
            rw [hcore] at hg
            dsimp only [Except.map] at hg
            have := (Except.ok.injEq _ _).mp hg
            have hx : some x = c := congrArg Prod.fst this
            have hsA : sA' = sA := congrArg Prod.snd this
            obtain ⟨e1, hcache, hstrict, hdecoded⟩ :=
              get_content_core_strict_ok cd raw s x sA' hcore
            have hs1raw : s1.raw_content = some d := by rw [hs1, hcv]
            have hs1cache : s1.content_cache = some e1 := by
              rw [hs1]
              show sA.content_cache = some e1
              rw [← hsA]
              exact hcache
            have hxd : x = d := by
              have := hx.trans hcv
              exact Option.some.inj this
            exact decode_no_ce_preserves cd s1 d e1 hs1raw hce1 hs1cache
              (by rw [hdecoded, hxd])

end NetlibHttp

namespace NetlibHttp

/-- A gzip-encoded two-byte message, for the C6 witness. -/
def msgGzip : MessageS :=
  ⟨some (gzwrap [104, 105]), [("content-encoding", "gzip")], none, none⟩

/-- The state of `msgGzip` after one strict decode. -/
def msgGzipDecoded : MessageS :=
  ⟨some [104, 105], [],
    some ⟨gzwrap [104, 105], some "gzip", true, [104, 105]⟩, none⟩

/-- Witness for C6 at a concrete gzip-encoded message. -/
theorem C6_witness :
    hget msgGzipDecoded.headers "content-encoding" = none ∧
    Message.contentVal testCodec true msgGzip = Except.ok msgGzipDecoded.raw_content ∧
    ∃ s2, Message.decode testCodec true msgGzipDecoded = Except.ok s2 ∧
      s2.raw_content = msgGzipDecoded.raw_content ∧
      s2.headers = msgGzipDecoded.headers ∧
      Message.contentVal testCodec true s2 =
        Message.contentVal testCodec true msgGzipDecoded :=
  C6_decode_strict_removes_header_idempotent testCodec msgGzip msgGzipDecoded (by rfl)

end NetlibHttp

namespace NetlibHttp

/-- Every successful `set_content` write installs a strict cache cell
holding the written value, assigns its encoded form to the raw body, and
rewrites `content-length` over headers that are otherwise at most
stripped of `content-encoding`. -/
theorem set_content_full (cd : Codec) (v : Bytes) (s : MessageS) :
    ∃ (entry : CEntry) (h1 : List (String × String)),
      Message.set_content cd (some v) s =
        { s with
          content_cache := some entry
          raw_content := some entry.encoded
          headers := hset h1 "content-length" (toString entry.encoded.length) } ∧
      entry.decoded = v ∧ entry.strict = true ∧
      (h1 = s.headers ∨ h1 = hdel s.headers "content-encoding") := by
  rcases set_content_cases cd v s with ⟨e0, hc, h1, h2, h3, heq⟩ | ⟨enc, henc, heq⟩ |
    ⟨henc, heq⟩
  · exact ⟨e0, s.headers, heq, h1, h3, Or.inl rfl⟩
  · exact ⟨⟨enc, hget s.headers "content-encoding", true, v⟩, s.headers, heq, rfl, rfl,
      Or.inl rfl⟩
  · exact ⟨⟨v, none, true, v⟩, hdel s.headers "content-encoding", heq, rfl, rfl,
      Or.inr rfl⟩

end NetlibHttp

namespace NetlibHttp

/-- The state `set_text` hands to `set_content` on the fallback path: the
rewritten content-type header plus the strict utf8 text cache cell. -/
def set_text_mid (cd : Codec) (text : String) (s : MessageS) : MessageS :=
  { s with
    headers := hset s.headers "content-type" (Message.set_text_newct s)
    text_cache := some ⟨cd.lossy_encode text, "utf8", true, text⟩ }

/-- C8.  When the guessed charset cannot encode the text, `set_text` does
not fail: it rewrites the content-type header so that its charset
parameter is utf-8 (starting from a minimal text/plain when the current
header is absent or unparsable), encodes the text loss-tolerantly, and a
subsequent strict `get_text` returns the same text. -/
theorem C8_set_text_fallback_rewrites_charset_utf8 (cd : Codec) (s : MessageS)
    (text : String)
    (hmiss : ∀ e, s.text_cache = some e →
      ¬(e.decoded = text ∧ e.encoding = Message.guess_encoding s ∧ e.strict = true))
    (hfail : cd.encodeT text (Message.guess_encoding s) = Except.error ())
    (hrt : cd.decodeT (cd.lossy_encode text) "utf-8" = Except.ok text)
    (hpa : parse_content_type (Message.set_text_newct s) =
      some ((Message.set_text_ct s).1, (Message.set_text_ct s).2.1,
        Message.set_text_ps s)) :
    hget (Message.set_text cd (some text) s).headers "content-type" =
      some (Message.set_text_newct s) ∧
    dictGet (Message.set_text_ps s) "charset" = some "utf-8" ∧
    Message.textVal cd true (Message.set_text cd (some text) s) =
      Except.ok (some text) := by
  have hne1 : lcase "content-length" ≠ lcase "content-type" := by decide
  have hne2 : lcase "content-encoding" ≠ lcase "content-type" := by decide
  have hstep : Message.set_text cd (some text) s =
      Message.set_content cd (some (cd.lossy_encode text)) (set_text_mid cd text s) := by
    cases htc : s.text_cache with
    | none => simp [Message.set_text, set_text_mid, htc, hfail]
    | some e =>
      have hm := hmiss e htc
      have hcond : ¬((e.decoded == text && e.encoding == Message.guess_encoding s &&
          e.strict) = true) := by
        intro hb
        simp only [Bool.and_eq_true, beq_iff_eq] at hb
        exact hm ⟨hb.1.1, hb.1.2, hb.2⟩
      simp [Message.set_text, set_text_mid, htc, hfail, hcond]
  obtain ⟨entry, h1, heq, hdec, hstrict, hor⟩ :=
    set_content_full cd (cd.lossy_encode text) (set_text_mid cd text s)
  have hmid_ct : hget (set_text_mid cd text s).headers "content-type" =
      some (Message.set_text_newct s) := by
    simp only [set_text_mid]
    exact hget_hset_self _ _ _
  have hct : hget (Message.set_text cd (some text) s).headers "content-type" =
      some (Message.set_text_newct s) := by
    rw [hstep, heq]
    show hget (hset h1 "content-length" (toString entry.encoded.length))
      "content-type" = _
    rw [hget_hset_other _ _ _ _ hne1]
    rcases hor with h1eq | h1eq
    · rw [h1eq, hmid_ct]
    · rw [h1eq, hget_hdel_other _ _ _ hne2, hmid_ct]
  refine ⟨hct, dictGet_dictSet_self _ _ _, ?_⟩
  rw [hstep]
  have hraw : (Message.set_content cd (some (cd.lossy_encode text))
      (set_text_mid cd text s)).raw_content = some entry.encoded := by
    rw [heq]
  have hccs : (Message.set_content cd (some (cd.lossy_encode text))
      (set_text_mid cd text s)).content_cache = some entry := by
    rw [heq]
  have htcs : (Message.set_content cd (some (cd.lossy_encode text))
      (set_text_mid cd text s)).text_cache =
      some ⟨cd.lossy_encode text, "utf8", true, text⟩ := by
    rw [heq]
    simp [set_text_mid]
  have hguess : Message.guess_encoding (Message.set_content cd
      (some (cd.lossy_encode text)) (set_text_mid cd text s)) = "utf-8" := by
    have hct2 : hget (Message.set_content cd (some (cd.lossy_encode text))
        (set_text_mid cd text s)).headers "content-type" =
        some (Message.set_text_newct s) := by
      rw [← hstep]
      exact hct
    simp [Message.guess_encoding, Message.set_text_ps, hct2, hpa, dictGet_dictSet_self]
  have hgc := set_content_get cd (cd.lossy_encode text) (set_text_mid cd text s)
  have hcore : Message.get_content_core cd true entry.encoded
      (Message.set_content cd (some (cd.lossy_encode text)) (set_text_mid cd text s)) =
      Except.ok (cd.lossy_encode text,
        Message.set_content cd (some (cd.lossy_encode text)) (set_text_mid cd text s)) := by
    rw [Message.get_content, hraw] at hgc
    dsimp only [] at hgc
    cases hx : Message.get_content_core cd true entry.encoded
        (Message.set_content cd (some (cd.lossy_encode text)) (set_text_mid cd text s)) with
    | error err =>
      rw [hx] at hgc
      exact Except.noConfusion hgc
    | ok q =>
      obtain ⟨x, t⟩ := q
      rw [hx] at hgc
      dsimp only [Except.map] at hgc
      have hinj := (Except.ok.injEq _ _).mp hgc
      have hx1 : some x = some (cd.lossy_encode text) := congrArg Prod.fst hinj
      have hx2 : t = Message.set_content cd (some (cd.lossy_encode text))
        (set_text_mid cd text s) := congrArg Prod.snd hinj
      rw [hx2, Option.some.inj hx1]
  simp only [Message.textVal, Message.get_text, hraw]
  rw [hguess, hcore]
  dsimp only []
  rw [htcs]
  simp [hrt, hccs, hstrict, Except.map, show (("utf8" : String) == "utf-8") = false by decide]

end NetlibHttp

namespace NetlibHttp

/-- A message whose content type names an ascii charset that cannot
represent the text being written, for the C8 witness. -/
def msgAsciiCT : MessageS :=
  ⟨some [5], [("content-type", "text/plain; charset=ascii")], none, none⟩

/-- Witness for C8: writing a text the guessed ascii charset cannot encode
rewrites the content type to utf-8 and reads back unchanged. -/
theorem C8_witness :
    hget (Message.set_text testCodec (some "héllo") msgAsciiCT).headers
      "content-type" = some (Message.set_text_newct msgAsciiCT) ∧
    dictGet (Message.set_text_ps msgAsciiCT) "charset" = some "utf-8" ∧
    Message.textVal testCodec true (Message.set_text testCodec (some "héllo") msgAsciiCT) =
      Except.ok (some "héllo") :=
  C8_set_text_fallback_rewrites_charset_utf8 testCodec msgAsciiCT "héllo"
    (fun _ h => nomatch h) (by rfl) (by rfl) (by rfl)

end NetlibHttp
